import Mathlib

/-!
Verification of the incremental rate-collector (`ratepulling.py`).

The Python source is shallowly embedded below.  Machine integers are `Nat`/`Int`
(Python integers are unbounded), Python floats that carry exact decimal data are
modelled as `ℚ`, fallible operations return `Option`.  `datetime.fromtimestamp`
and `datetime.strptime` (used by `fmt_dt` / `_parse_dt`) are modelled with the
process timezone fixed to UTC; the civil-calendar conversion is the standard
era-based Gregorian algorithm implemented by the C runtime.
-/

namespace RatePulling

/-! ## Civil calendar foundation -/

/-- A naive `datetime` value as produced by `datetime.fromtimestamp` /
`datetime.strptime` (the sub-second part is irrelevant to the embedded code). -/
structure DT where
  year : ℕ
  month : ℕ
  day : ℕ
  hour : ℕ
  minute : ℕ
  second : ℕ
deriving DecidableEq, Repr

/-- Number of days of month `m` of year `y` in the Gregorian calendar, the
bound enforced by the `datetime` constructor. -/
def daysInMonth (y m : ℕ) : ℕ :=
  if m = 2 then (if y % 4 = 0 ∧ (y % 100 ≠ 0 ∨ y % 400 = 0) then 29 else 28)
  else if m = 4 ∨ m = 6 ∨ m = 9 ∨ m = 11 then 30
  else 31

/-- Year-of-era numerator of the era-based date algorithm, as a function of the
day-of-era. -/
def W (x : ℕ) : ℕ := x - x / 1460 + x / 36524 - x / 146096

/-- Day-of-era on which year-of-era `t` starts (March-based); meaningful for
`t ≤ 399`. -/
def ys (t : ℕ) : ℕ := 365 * t + t / 4 - t / 100

/-- `datetime.fromtimestamp` (UTC): non-negative epoch seconds to civil fields,
via the era-based Gregorian date algorithm. -/
def secsToDT (s : ℕ) : DT :=
  let days := s / 86400
  let sod := s % 86400
  let z := days + 719468
  let era := z / 146097
  let doe := z % 146097
  let yoe := (doe - doe / 1460 + doe / 36524 - doe / 146096) / 365
  let y := yoe + era * 400
  let doy := doe - (365 * yoe + yoe / 4 - yoe / 100)
  let mp := (5 * doy + 2) / 153
  let d := doy - (153 * mp + 2) / 5 + 1
  let m := if mp < 10 then mp + 3 else mp - 9
  { year := if m ≤ 2 then y + 1 else y
    month := m
    day := d
    hour := sod / 3600
    minute := sod % 3600 / 60
    second := sod % 60 }

/-- Epoch seconds of year 10000 (UTC); `datetime.fromtimestamp` only covers
years up to 9999. -/
def SECS_MAX : ℕ := 253402300800

/-! ## Decimal rendering and parsing of timestamps

`fmt_dt` renders `f"{dt.month}/{dt.day}/{dt.year} {dt.hour}:{dt.minute:02d}:{dt.second:02d}"`
(month, day and hour unpadded).  `_parse_dt` models
`datetime.strptime(s, "%m/%d/%Y %H:%M:%S")`: the numeric directives `%m %d %H
%M %S` consume one or two digits, `%Y` consumes exactly four, literal
separators must match, no trailing input is allowed, and the `datetime`
constructor validates the field ranges (calendar-valid day included). -/

/-- Little-endian decimal digit values of `n` (fuel-based; `fuel` digits are
enough for any value `< 10 ^ fuel`). -/
def decChars : ℕ → ℕ → List ℕ
  | 0, _ => []
  | fuel + 1, n => if n = 0 then [] else n % 10 :: decChars fuel (n / 10)

/-- Decimal rendering of a field value (all fields rendered by `fmt_dt` are
below `10 ^ 5`). -/
def natChars (n : ℕ) : List Char :=
  if n = 0 then ['0'] else (decChars 5 n).reverse.map Nat.digitChar

/-- Python's `{n:02d}`. -/
def pad2 (n : ℕ) : List Char := if n < 10 then '0' :: natChars n else natChars n

def renderDT (dt : DT) : List Char :=
  natChars dt.month ++ '/' ::
    (natChars dt.day ++ '/' ::
      (natChars dt.year ++ ' ' ::
        (natChars dt.hour ++ ':' :: (pad2 dt.minute ++ ':' :: pad2 dt.second))))

/-- `datetime.fromtimestamp(ts_ms/1000)`, field part. -/
def msToDT (t : ℕ) : DT := secsToDT (t / 1000)

/-- `fmt_dt` from the source: format a millisecond timestamp. -/
def fmt_dt (t : ℕ) : String := String.mk (renderDT (msToDT t))

def digitVal (c : Char) : ℕ := c.toNat - 48

/-- Value of a big-endian list of digit values. -/
def valBE (ds : List ℕ) : ℕ := ds.foldl (fun a d => 10 * a + d) 0

/-- A `%m`-style directive: consume one or two leading digits (greedy). -/
def munch2 : List Char → Option (ℕ × List Char)
  | [] => none
  | [c1] => if c1.isDigit then some (digitVal c1, []) else none
  | c1 :: c2 :: rest =>
    if c1.isDigit then
      if c2.isDigit then some (10 * digitVal c1 + digitVal c2, rest)
      else some (digitVal c1, c2 :: rest)
    else none

/-- The `%Y` directive: consume exactly four digits. -/
def munch4 : List Char → Option (ℕ × List Char)
  | c1 :: c2 :: c3 :: c4 :: rest =>
    if c1.isDigit && c2.isDigit && c3.isDigit && c4.isDigit then
      some (1000 * digitVal c1 + 100 * digitVal c2 + 10 * digitVal c3 + digitVal c4, rest)
    else none
  | _ => none

def expectChar (c : Char) : List Char → Option (List Char)
  | x :: rest => if x = c then some rest else none
  | [] => none

def parseDTChars (cs : List Char) : Option DT := do
  let (m, r1) ← munch2 cs
  let r2 ← expectChar '/' r1
  let (d, r3) ← munch2 r2
  let r4 ← expectChar '/' r3
  let (y, r5) ← munch4 r4
  let r6 ← expectChar ' ' r5
  let (hh, r7) ← munch2 r6
  let r8 ← expectChar ':' r7
  let (mi, r9) ← munch2 r8
  let r10 ← expectChar ':' r9
  let (ss, r11) ← munch2 r10
  if r11 = [] ∧ 1 ≤ m ∧ m ≤ 12 ∧ 1 ≤ d ∧ d ≤ daysInMonth y m ∧
      1 ≤ y ∧ hh ≤ 23 ∧ mi ≤ 59 ∧ ss ≤ 59 then
    some { year := y, month := m, day := d, hour := hh, minute := mi, second := ss }
  else
    none

/-- `_parse_dt` from the source: strict parse, `None` on failure. -/
def _parse_dt (s : String) : Option DT := parseDTChars s.data

/-- Days since the epoch of a civil date (`year ≥ 1`); inverse direction
of the era-based algorithm. -/
def daysFromCivil (year m d : ℕ) : ℤ :=
  let y := if m ≤ 2 then year - 1 else year
  let era := y / 400
  let yoe := y % 400
  let doy := (153 * (if 2 < m then m - 3 else m + 9) + 2) / 5 + d - 1
  let doe := yoe * 365 + yoe / 4 - yoe / 100 + doy
  (era * 146097 + doe : ℤ) - 719468

/-- `int(dt.timestamp() * 1000)` for a parsed (sub-second-free) datetime,
timezone UTC. -/
def dtToMs (dt : DT) : ℤ :=
  (daysFromCivil dt.year dt.month dt.day * 86400
    + dt.hour * 3600 + dt.minute * 60 + dt.second) * 1000

/-- `_to_ms` from the source. -/
def _to_ms (s : String) : Option ℤ := (_parse_dt s).map dtToMs


/-! ## Sheet cells and Python values

A sheet cell as built by the row-construction code: a string (timestamps), a
numeric value (Python floats carrying exact decimal data, modelled as `ℚ`), or
Python `None`. -/

inductive Cell where
  | str (s : String)
  | num (q : ℚ)
  | null
deriving DecidableEq, Repr

/-- Python `str()` of a cell value. -/
def cellStr : Cell → String
  | .str s => s
  | .num q => toString q
  | .null => "None"

def optCell : Option ℚ → Cell
  | some q => .num q
  | none => .null

/-! ## Quota-gated executor (`gs_retry`) -/

/-- Outcome of one attempt of the wrapped gspread call: success, an `APIError`
classified as rate-limit (message containing "429" or "Quota exceeded"), or
any other error (which the `except` clause re-raises / does not catch). -/
inductive GSRes (α : Type) where
  | ok (a : α)
  | rateLimited
  | err
deriving DecidableEq, Repr

/-- The retry loop of `gs_retry`: `n` guarded attempts remaining, `i` the index
of the next attempt, `delay` the current backoff; returns the outcome together
with the list of sleeps performed.  When the guarded budget is exhausted one
final unguarded attempt is made. -/
def gsRetryGo {α : Type} (f : ℕ → GSRes α) : ℕ → ℕ → ℕ → GSRes α × List ℕ
  | 0, i, _ => (f i, [])
  | n + 1, i, delay =>
    match f i with
    | .ok a => (.ok a, [])
    | .rateLimited =>
      ((gsRetryGo f n (i + 1) (2 * delay)).1, delay :: (gsRetryGo f n (i + 1) (2 * delay)).2)
    | .err => (.err, [])

/-- `gs_retry` from the source: six guarded attempts with doubling backoff
starting at one time-unit, then one final unguarded attempt. -/
def gs_retry {α : Type} (f : ℕ → GSRes α) : GSRes α × List ℕ := gsRetryGo f 6 0 1

/-! ## Loan math -/

/-- `collateral_needed_usdt` from the source; arguments are `Option` to cover
Python `None`, and Python falsiness of a float is `= 0`. -/
def collateral_needed_usdt (loan_usd init_ltv : Option ℚ) : Option ℚ :=
  match loan_usd, init_ltv with
  | some l, some i => if l = 0 ∨ i = 0 ∨ i ≤ 0 then none else some (l / i)
  | _, _ => none

/-- `liquidation_start_price` from the source. -/
def liquidation_start_price (spot init_ltv liq_ltv : Option ℚ) : Option ℚ :=
  match spot, init_ltv, liq_ltv with
  | some s, some i, some l =>
    if s = 0 ∨ s ≤ 0 ∨ i = 0 ∨ l = 0 then none else some (s * (l / i))
  | _, _, _ => none

/-! ## Duplicate-key cache and append -/

/-- Body of `get_existing_dates_set` applied to the values of column A:
`set(v for v in vals[1:] if v)`, modelled as a list with membership as the set
query.  Note: every non-empty string is kept, parseable or not. -/
def get_existing_dates_set (vals : List String) : List String :=
  (vals.drop 1).filter (fun v => !(v == ""))

/-- `str(r[0])` — the primary key of a candidate row (rows reaching this point
are non-empty). -/
def rowKey (r : List Cell) : String := cellStr (r.headD Cell.null)

/-- `list(r)[:11]` padded with `""` to 11 fields. -/
def normalizeRow (r : List Cell) : List Cell :=
  r.take 11 ++ List.replicate (11 - r.length) (Cell.str "")

/-- `append_new_unique_rows` from the source, as a function of the cached key
set and the candidate rows.  Returns the updated cache and `some out` when one
batched `append_rows(out)` call is made, `none` when no write happens.  As in
the source, `to_add` is computed against the cache as of entry, and the
accepted keys are merged into the cache afterwards. -/
def append_new_unique_rows (existing : List String) (rows : List (List Cell)) :
    List String × Option (List (List Cell)) :=
  if rows.isEmpty then (existing, none)
  else
    let to_add := rows.filter (fun r => !r.isEmpty && !(existing.contains (rowKey r)))
    if to_add.isEmpty then (existing, none)
    else
      let out := to_add.map normalizeRow
      (existing ++ out.map rowKey, some out)

/-! ## Watermark resolver (`get_last_funding_dt`) -/

/-- Python `datetime` comparison `a < b` (lexicographic on the fields). -/
def dtLtb (a b : DT) : Bool :=
  decide (a.year < b.year) || (a.year == b.year &&
    (decide (a.month < b.month) || (a.month == b.month &&
      (decide (a.day < b.day) || (a.day == b.day &&
        (decide (a.hour < b.hour) || (a.hour == b.hour &&
          (decide (a.minute < b.minute) || (a.minute == b.minute &&
            decide (a.second < b.second))))))))))

/-- Python `str.strip()`: drop leading and trailing whitespace. -/
def pyStrip (s : String) : String :=
  String.mk (((s.data.dropWhile Char.isWhitespace).reverse.dropWhile Char.isWhitespace).reverse)

/-- One step of the `get_last_funding_dt` loop over a row of the `A2:B` read. -/
def lastFundingStep (last_dt : Option DT) (row : List String) : Option DT :=
  if row.isEmpty then last_dt
  else
    let ds := row.headD ""
    let b := row.getD 1 ""
    if ds ≠ "" ∧ pyStrip b ≠ "" then
      match _parse_dt ds with
      | some dt =>
        match last_dt with
        | none => some dt
        | some l => if dtLtb l dt then some dt else last_dt
      | none => last_dt
    else last_dt

/-- `get_last_funding_dt` from the source, as a function of the `A2:B` values. -/
def get_last_funding_dt (vals : List (List String)) : Option DT :=
  vals.foldl lastFundingStep none

/-! ## Interest-only snapshot row -/

/-- The snapshot row built in `main` for a Bybit tab:
`[ts, 0.0, 0.0, d, spot, None, None, None, None, None, None]` with
`spot = None`. -/
def by_snapshot_row (ts : String) (d : Option ℚ) : List Cell :=
  [Cell.str ts, Cell.num 0, Cell.num 0, optCell d, Cell.null, Cell.null,
   Cell.null, Cell.null, Cell.null, Cell.null, Cell.null]

/-! ## Nearest-match (`bisect` + `min`) -/

/-- `bisect.bisect_left` inner loop (fuel-based; `fuel = hi - lo` suffices). -/
def bisectGo (l : List ℤ) (x : ℤ) : ℕ → ℕ → ℕ → ℕ
  | 0, lo, _ => lo
  | fuel + 1, lo, hi =>
    if lo < hi then
      let mid := (lo + hi) / 2
      if l.getD mid 0 < x then bisectGo l x fuel (mid + 1) hi
      else bisectGo l x fuel lo mid
    else lo

/-- `bisect.bisect_left(l, x)`. -/
def bisect_left (l : List ℤ) (x : ℤ) : ℕ := bisectGo l x l.length 0 l.length

/-- The `min` key comparison `(abs(p[0]-ts_ms), 0 if p[0] <= ts_ms else 1)` as
a strict lexicographic comparison on candidates. -/
def rateKeyLt (t : ℤ) (p q : ℤ × ℚ) : Bool :=
  decide ((p.1 - t).natAbs < (q.1 - t).natAbs) ||
    (((p.1 - t).natAbs == (q.1 - t).natAbs) &&
      decide ((if p.1 ≤ t then (0 : ℕ) else 1) < (if q.1 ≤ t then (0 : ℕ) else 1)))

/-- Encoding of the key as a single natural (the tie-rank is 0 or 1). -/
def keyN (t : ℤ) (p : ℤ × ℚ) : ℕ :=
  2 * (p.1 - t).natAbs + (if p.1 ≤ t then 0 else 1)

/-- Python `min(cands, key=...)`: first element with minimal key. -/
def minByKey (t : ℤ) : List (ℤ × ℚ) → Option (ℤ × ℚ)
  | [] => none
  | c :: cs => some (cs.foldl (fun best p => if rateKeyLt t p best then p else best) c)

/-- The candidate set `{hist[pos-1] if pos > 0, hist[pos] if pos < len}`. -/
def candList (hist : List (ℤ × ℚ)) (pos : ℕ) : List (ℤ × ℚ) :=
  (if 0 < pos then [hist.getD (pos - 1) (0, 0)] else []) ++
    (if pos < hist.length then [hist.getD pos (0, 0)] else [])

/-- `pick_closest_rate` from the source.  Note: no gap check — the closest
candidate's rate is returned at any distance. -/
def pick_closest_rate (hist : List (ℤ × ℚ)) (ts_ms : ℤ) : Option ℚ :=
  if hist.isEmpty then none
  else
    let pos := bisect_left (hist.map Prod.fst) ts_ms
    match minByKey ts_ms (candList hist pos) with
    | some best => some best.2
    | none => none

/-! ## Bybit interest alignment (`align_bybit_interest_to_funding`) -/

def BYBIT_ALIGN_MAX_GAP_HOURS : ℕ := 48

/-- Digits of a decimal literal part. -/
def parseDigitsQ (cs : List Char) : Option ℕ :=
  if !cs.isEmpty && cs.all Char.isDigit then some (valBE (cs.map digitVal)) else none

/-- Unsigned decimal literal, `intpart[.fracpart]` (either part may be empty,
not both). -/
def strToRatCore (cs : List Char) : Option ℚ :=
  match cs.splitOn '.' with
  | [ip] => (parseDigitsQ ip).map (fun n => (n : ℚ))
  | [ip, fp] =>
    if ip.isEmpty && fp.isEmpty then none
    else if ip.all Char.isDigit && fp.all Char.isDigit then
      some ((valBE (ip.map digitVal) : ℚ) + (valBE (fp.map digitVal) : ℚ) / (10 : ℚ) ^ fp.length)
    else none
  | _ => none

/-- `float(str(d).replace(",", ""))` for the plain decimal literals the sheet
holds (exponent and special forms do not occur in this pipeline). -/
def strToRat (s : String) : Option ℚ :=
  let cs := s.data.filter (fun c => !(c == ','))
  match cs with
  | '-' :: rest => (strToRatCore rest).map Neg.neg
  | '+' :: rest => strToRatCore rest
  | _ => strToRatCore cs

/-- The classification loop of `align_bybit_interest_to_funding` over the
`A2:D` values, with `i` the sheet row index of the first row (`enumerate(vals,
start=2)`): collects interest snapshots (funding blank, interest present) and
targets (funding present, interest blank). -/
def alignScan (i : ℕ) : List (List String) → List (ℤ × ℚ) × List (ℤ × ℕ)
  | [] => ([], [])
  | row :: rest =>
    let later := alignScan (i + 1) rest
    let a := row.headD ""
    let b := row.getD 1 ""
    let d := row.getD 3 ""
    if a = "" then later
    else
      match _to_ms a with
      | none => later
      | some t_ms =>
        if pyStrip b = "" ∧ pyStrip d ≠ "" then
          match strToRat d with
          | some rate => ((t_ms, rate) :: later.1, later.2)
          | none => later
        else if pyStrip b ≠ "" ∧ pyStrip d = "" then (later.1, (t_ms, i) :: later.2)
        else later

/-- Stable insertion into a list sorted by timestamp. -/
def insertSnap (p : ℤ × ℚ) : List (ℤ × ℚ) → List (ℤ × ℚ)
  | [] => [p]
  | q :: qs => if p.1 < q.1 then p :: q :: qs else q :: insertSnap p qs

/-- `snaps.sort(key=lambda x: x[0])` — a stable sort by timestamp. -/
def sortSnaps (l : List (ℤ × ℚ)) : List (ℤ × ℚ) :=
  l.foldl (fun acc p => insertSnap p acc) []

/-- One step of the matching loop over the targets: binary-search the sorted
snapshot timestamps, take the two neighbours, pick the `min`-by-key candidate,
keep it only within the gap. -/
def alignMatchStep (snaps : List (ℤ × ℚ)) (gap_ms : ℤ) (ti : ℤ × ℕ)
    (acc : List (ℕ × ℚ)) : List (ℕ × ℚ) :=
  let pos := bisect_left (snaps.map Prod.fst) ti.1
  match minByKey ti.1 (candList snaps pos) with
  | none => acc
  | some best => if |best.1 - ti.1| ≤ gap_ms then (ti.2, best.2) :: acc else acc

/-- The update list `[(row_idx, value), ...]` computed by
`align_bybit_interest_to_funding` before the write loop. -/
def align_bybit_interest_to_funding_updates (vals : List (List String)) : List (ℕ × ℚ) :=
  if vals.isEmpty then []
  else
    let scan := alignScan 2 vals
    if scan.1.isEmpty || scan.2.isEmpty then []
    else
      let snaps := sortSnaps scan.1
      let gap_ms : ℤ := (BYBIT_ALIGN_MAX_GAP_HOURS : ℤ) * 3600 * 1000
      scan.2.foldr (alignMatchStep snaps gap_ms) []

/-- Decimal rendering of the written value (its exact text is irrelevant to
the frame properties proved below). -/
def ratCellStr (q : ℚ) : String := toString q

/-- `ws.update_cell(row_idx, 4, val)` on the `A2:...` value grid: `row_idx` is
the 1-based sheet row (data starts at row 2), column 4 is list index 3. -/
def update_cell (vals : List (List String)) (row_idx : ℕ) (v : String) : List (List String) :=
  match vals.get? (row_idx - 2) with
  | none => vals
  | some row => vals.set (row_idx - 2) ((row ++ List.replicate (4 - row.length) "").set 3 v)

/-- The write loop of `align_bybit_interest_to_funding`. -/
def apply_align_updates (vals : List (List String)) (ups : List (ℕ × ℚ)) : List (List String) :=
  ups.foldl (fun g u => update_cell g u.1 (ratCellStr u.2)) vals

/-- Cell read on the value grid (absent cells read as `""`, as gspread
presents them). -/
def getCell (vals : List (List String)) (i j : ℕ) : String := (vals.getD i []).getD j ""

/-- Example `A2:D` grid: one interest snapshot row (funding blank, interest
present) one day before one funding row (funding present, interest blank). -/
def alignExampleVals : List (List String) :=
  [["1/1/2024 0:00:00", "", "", "7"], ["1/2/2024 0:00:00", "1.0", "", ""]]

/-! ## Calendar theorems -/

theorem W_mono : Monotone W :=
  monotone_nat_of_le_succ (fun x => by unfold W; omega)

theorem W_ys (t : ℕ) (h : t ≤ 399) : W (ys t) = 365 * t := by
  have hd : t / 100 ≤ t / 4 := by omega
  have h1 : (365 * t + t / 4 - t / 100) / 1460 = t / 4 := by omega
  have h2 : (365 * t + t / 4 - t / 100) / 36524 = t / 100 := by omega
  have h3 : (365 * t + t / 4 - t / 100) / 146096 = 0 := by omega
  unfold W ys
  omega

theorem W_ys_pred (t : ℕ) (h1 : 1 ≤ t) (h2 : t ≤ 399) : W (ys t - 1) < 365 * t := by
  have hd : t / 100 ≤ t / 4 := by omega
  have hA : (365 * t + t / 4 - t / 100 - 1) / 36524 ≤ t / 100 := by omega
  have hB : t / 4 ≤ (365 * t + t / 4 - t / 100 - 1) / 1460 := by omega
  unfold W ys
  omega

theorem ys_jump (y : ℕ) (h : y ≤ 398) :
    ys y + 365 ≤ ys (y + 1) ∧ ys (y + 1) ≤ ys y + 366 ∧
    (ys (y + 1) = ys y + 366 → ((y + 1) % 4 = 0 ∧ (y + 1) % 100 ≠ 0)) := by
  unfold ys; omega

/-- Year-of-era extraction is correct: the day-of-year is in range, and a
366th day occurs only in leap years. -/
theorem yoe_bracket (doe : ℕ) (h : doe ≤ 146096) :
    W doe / 365 ≤ 399 ∧ ys (W doe / 365) ≤ doe ∧ doe - ys (W doe / 365) ≤ 365 ∧
    (doe - ys (W doe / 365) = 365 →
      (W doe / 365 + 1) % 4 = 0 ∧
      ((W doe / 365 + 1) % 100 ≠ 0 ∨ (W doe / 365 + 1) % 400 = 0)) := by
  have hy399 : W doe / 365 ≤ 399 := by unfold W; omega
  have h365 : 365 * (W doe / 365) ≤ W doe ∧ W doe < 365 * (W doe / 365 + 1) := by omega
  have hN1 : ys (W doe / 365) ≤ doe := by
    rcases Nat.eq_zero_or_pos (W doe / 365) with h0 | hpos
    · simp [h0, ys]
    · by_contra hlt
      push_neg at hlt
      have hm : W doe ≤ W (ys (W doe / 365) - 1) := W_mono (by omega)
      have hp := W_ys_pred (W doe / 365) hpos hy399
      omega
  refine ⟨hy399, hN1, ?_⟩
  rcases Nat.lt_or_ge (W doe / 365) 399 with hlt399 | hge
  · have hup : doe < ys (W doe / 365 + 1) := by
      by_contra hge2
      push_neg at hge2
      have hm : W (ys (W doe / 365 + 1)) ≤ W doe := W_mono hge2
      have he := W_ys (W doe / 365 + 1) (by omega)
      omega
    have hj := ys_jump (W doe / 365) (by omega)
    refine ⟨by omega, fun h365d => ?_⟩
    have hj366 : ys (W doe / 365 + 1) = ys (W doe / 365) + 366 := by omega
    have := hj.2.2 hj366
    omega
  · have h399 : W doe / 365 = 399 := by omega
    rw [h399] at hN1 ⊢
    have hys : ys 399 = 145731 := by norm_num [ys]
    refine ⟨by omega, fun _ => by norm_num⟩

/-- Month extraction from day-of-year: month index and day-of-month are in
range, with the proper per-month caps. -/
theorem md_core (doy : ℕ) (h : doy ≤ 365) :
    (5 * doy + 2) / 153 ≤ 11 ∧
    1 ≤ doy - (153 * ((5 * doy + 2) / 153) + 2) / 5 + 1 ∧
    doy - (153 * ((5 * doy + 2) / 153) + 2) / 5 + 1 ≤ 31 ∧
    (((5 * doy + 2) / 153 = 1 ∨ (5 * doy + 2) / 153 = 3 ∨
      (5 * doy + 2) / 153 = 6 ∨ (5 * doy + 2) / 153 = 8) →
      doy - (153 * ((5 * doy + 2) / 153) + 2) / 5 + 1 ≤ 30) ∧
    ((5 * doy + 2) / 153 = 11 → doy - (153 * ((5 * doy + 2) / 153) + 2) / 5 + 1 ≤ 29) ∧
    ((5 * doy + 2) / 153 = 11 → doy - (153 * ((5 * doy + 2) / 153) + 2) / 5 + 1 = 29 → doy = 365) := by
  omega

set_option maxHeartbeats 2000000 in
/-- The civil fields produced by `secsToDT` form a valid Gregorian date-time
with a four-digit year. -/
theorem secsToDT_valid (s : ℕ) (hs : s < SECS_MAX) :
    1 ≤ (secsToDT s).month ∧ (secsToDT s).month ≤ 12 ∧
    1 ≤ (secsToDT s).day ∧ (secsToDT s).day ≤ daysInMonth (secsToDT s).year (secsToDT s).month ∧
    1000 ≤ (secsToDT s).year ∧ (secsToDT s).year ≤ 9999 ∧
    (secsToDT s).hour < 24 ∧ (secsToDT s).minute < 60 ∧ (secsToDT s).second < 60 := by
  have hdoe : (s / 86400 + 719468) % 146097 ≤ 146096 := by omega
  have hbr := yoe_bracket _ hdoe
  have hmd := md_core ((s / 86400 + 719468) % 146097 - ys (W ((s / 86400 + 719468) % 146097) / 365))
    hbr.2.2.1
  simp only [W, ys] at hbr hmd
  simp only [SECS_MAX] at hs
  simp only [secsToDT, daysInMonth]
  split_ifs <;> omega

/-! ### Digit lemmas -/

theorem decChars_lt (fuel n : ℕ) : ∀ d ∈ decChars fuel n, d < 10 := by
  induction fuel generalizing n with
  | zero => intro d hd; simp [decChars] at hd
  | succ fuel ih =>
    intro d hd
    by_cases h0 : n = 0
    · simp [decChars, h0] at hd
    · simp only [decChars, if_neg h0, List.mem_cons] at hd
      rcases hd with h | h
      · omega
      · exact ih _ d h

theorem valBE_append (xs : List ℕ) (d : ℕ) : valBE (xs ++ [d]) = 10 * valBE xs + d := by
  simp [valBE, List.foldl_append]

theorem valBE_rev_decChars (fuel : ℕ) : ∀ n, n < 10 ^ fuel →
    valBE (decChars fuel n).reverse = n := by
  induction fuel with
  | zero => intro n h; interval_cases n; simp [decChars, valBE]
  | succ fuel ih =>
    intro n h
    by_cases h0 : n = 0
    · simp [decChars, h0, valBE]
    · have hdiv : n / 10 < 10 ^ fuel := by
        rw [pow_succ] at h
        omega
      simp only [decChars, if_neg h0, List.reverse_cons, valBE_append, ih _ hdiv]
      omega

theorem decChars_len_le (fuel : ℕ) : ∀ n k, n < 10 ^ k → (decChars fuel n).length ≤ k := by
  induction fuel with
  | zero => intro n k _; simp [decChars]
  | succ fuel ih =>
    intro n k h
    by_cases h0 : n = 0
    · simp [decChars, h0]
    · have hk : k ≠ 0 := by
        intro hk0
        rw [hk0] at h
        simp at h
        omega
      obtain ⟨k', rfl⟩ : ∃ k', k = k' + 1 := ⟨k - 1, by omega⟩
      have hdiv : n / 10 < 10 ^ k' := by
        rw [pow_succ] at h
        omega
      simp only [decChars, if_neg h0, List.length_cons]
      exact Nat.succ_le_succ (ih _ _ hdiv)

theorem decChars_len_ge (fuel : ℕ) : ∀ n k, 10 ^ k ≤ n → n < 10 ^ fuel →
    k < (decChars fuel n).length := by
  induction fuel with
  | zero =>
    intro n k h1 h2
    have hp : 1 ≤ 10 ^ k := Nat.one_le_pow _ _ (by omega)
    simp [pow_zero] at h2
    omega
  | succ fuel ih =>
    intro n k h1 h2
    have h0 : n ≠ 0 := by
      have : 1 ≤ 10 ^ k := Nat.one_le_pow _ _ (by omega)
      omega
    simp only [decChars, if_neg h0, List.length_cons]
    rcases Nat.eq_zero_or_pos k with hk0 | hkpos
    · omega
    · obtain ⟨k', rfl⟩ : ∃ k', k = k' + 1 := ⟨k - 1, by omega⟩
      have ha : 10 ^ k' ≤ n / 10 := by
        rw [pow_succ] at h1
        omega
      have hb : n / 10 < 10 ^ fuel := by
        rw [pow_succ] at h2
        omega
      exact Nat.succ_lt_succ (ih _ _ ha hb)

theorem digitChar_isDigit : ∀ d, d < 10 → (Nat.digitChar d).isDigit = true := by decide

theorem digitVal_digitChar : ∀ d, d < 10 → digitVal (Nat.digitChar d) = d := by decide

theorem natChars_isDigit (n : ℕ) : ∀ c ∈ natChars n, c.isDigit = true := by
  intro c hc
  unfold natChars at hc
  by_cases h0 : n = 0
  · simp [h0] at hc
    subst hc
    decide
  · simp only [if_neg h0, List.mem_map, List.mem_reverse] at hc
    obtain ⟨d, hd, rfl⟩ := hc
    exact digitChar_isDigit d (decChars_lt 5 n d hd)

theorem valBE_natChars (n : ℕ) (h : n < 100000) : valBE ((natChars n).map digitVal) = n := by
  unfold natChars
  by_cases h0 : n = 0
  · simp [h0, valBE, digitVal]
  · rw [if_neg h0, List.map_map]
    have hmap : (decChars 5 n).reverse.map (digitVal ∘ Nat.digitChar)
        = (decChars 5 n).reverse.map id := by
      apply List.map_congr_left
      intro d hd
      rw [List.mem_reverse] at hd
      exact digitVal_digitChar d (decChars_lt 5 n d hd)
    rw [hmap, List.map_id]
    exact valBE_rev_decChars 5 n (by norm_num; omega)

theorem natChars_len12 (n : ℕ) (h : n < 100) :
    (natChars n).length = 1 ∨ (natChars n).length = 2 := by
  unfold natChars
  by_cases h0 : n = 0
  · simp [h0]
  · rw [if_neg h0]
    have hle : (decChars 5 n).length ≤ 2 := decChars_len_le 5 n 2 (by omega)
    have hge : 0 < (decChars 5 n).length :=
      decChars_len_ge 5 n 0 (by omega) (by norm_num; omega)
    simp only [List.length_map, List.length_reverse]
    omega

theorem natChars_len4 (n : ℕ) (h1 : 1000 ≤ n) (h2 : n ≤ 9999) :
    (natChars n).length = 4 := by
  unfold natChars
  rw [if_neg (by omega)]
  have hle : (decChars 5 n).length ≤ 4 := decChars_len_le 5 n 4 (by omega)
  have hge : 3 < (decChars 5 n).length :=
    decChars_len_ge 5 n 3 (by norm_num; omega) (by norm_num; omega)
  simp only [List.length_map, List.length_reverse]
  omega

/-! ### Parse-render roundtrip -/

theorem valBE_cons_zero (l : List ℕ) : valBE (0 :: l) = valBE l := rfl

theorem natChars_len1 (n : ℕ) (h : n < 10) : (natChars n).length = 1 := by
  unfold natChars
  by_cases h0 : n = 0
  · simp [h0]
  · rw [if_neg h0]
    have hle := decChars_len_le 5 n 1 (by omega)
    have hge := decChars_len_ge 5 n 0 (by omega) (by norm_num; omega)
    simp only [List.length_map, List.length_reverse]
    omega

theorem pad2_isDigit (n : ℕ) : ∀ c ∈ pad2 n, c.isDigit = true := by
  intro c hc
  unfold pad2 at hc
  split_ifs at hc with h
  · rcases List.mem_cons.mp hc with rfl | hc
    · decide
    · exact natChars_isDigit n c hc
  · exact natChars_isDigit n c hc

theorem pad2_len (n : ℕ) (h : n < 100) : (pad2 n).length = 1 ∨ (pad2 n).length = 2 := by
  unfold pad2
  split_ifs with h10
  · right
    simp [natChars_len1 n h10]
  · exact natChars_len12 n h

theorem valBE_pad2 (n : ℕ) (h : n < 100) : valBE ((pad2 n).map digitVal) = n := by
  unfold pad2
  split_ifs with h10
  · have h0 : digitVal '0' = 0 := by decide
    simp only [List.map_cons, h0, valBE_cons_zero]
    exact valBE_natChars n (by omega)
  · exact valBE_natChars n (by omega)

theorem munch2_spec (ds rest : List Char)
    (hlen : ds.length = 1 ∨ ds.length = 2)
    (hdig : ∀ c ∈ ds, c.isDigit = true)
    (hrest : ∀ c ∈ rest.head?, c.isDigit = false) :
    munch2 (ds ++ rest) = some (valBE (ds.map digitVal), rest) := by
  rcases ds with _ | ⟨a, _ | ⟨b, t⟩⟩
  · simp at hlen
  · have ha := hdig a (by simp)
    cases rest with
    | nil => simp [munch2, ha, valBE]
    | cons r rs =>
      have hr : r.isDigit = false := hrest r (by simp)
      simp [munch2, ha, hr, valBE]
  · rcases t with _ | ⟨c, t⟩
    · have ha := hdig a (by simp)
      have hb := hdig b (by simp)
      simp [munch2, ha, hb, valBE]
    · simp at hlen

theorem munch4_spec (ds rest : List Char) (hlen : ds.length = 4)
    (hdig : ∀ c ∈ ds, c.isDigit = true) :
    munch4 (ds ++ rest) = some (valBE (ds.map digitVal), rest) := by
  rcases ds with _ | ⟨a, ds⟩
  · simp at hlen
  rcases ds with _ | ⟨b, ds⟩
  · simp at hlen
  rcases ds with _ | ⟨c, ds⟩
  · simp at hlen
  rcases ds with _ | ⟨d, ds⟩
  · simp at hlen
  rcases ds with _ | ⟨e, ds⟩
  · have ha := hdig a (by simp)
    have hb := hdig b (by simp)
    have hc := hdig c (by simp)
    have hd := hdig d (by simp)
    simp only [List.cons_append, List.nil_append, munch4, ha, hb, hc, hd,
      Bool.and_self, if_pos, List.map_cons, List.map_nil]
    have : valBE [digitVal a, digitVal b, digitVal c, digitVal d]
        = 1000 * digitVal a + 100 * digitVal b + 10 * digitVal c + digitVal d := by
      simp [valBE]
      omega
    rw [this]
  · simp at hlen

theorem expectChar_self (c : Char) (rest : List Char) : expectChar c (c :: rest) = some rest := by
  simp [expectChar]

theorem munch2_natChars (n : ℕ) (hn : n < 100) (sep : Char) (hsep : sep.isDigit = false)
    (rest : List Char) :
    munch2 (natChars n ++ sep :: rest) = some (n, sep :: rest) := by
  have h := munch2_spec (natChars n) (sep :: rest) (natChars_len12 n hn) (natChars_isDigit n)
    (by intro c hc; simp at hc; subst hc; exact hsep)
  rwa [valBE_natChars n (by omega)] at h

theorem munch2_pad2 (n : ℕ) (hn : n < 100) (sep : Char) (hsep : sep.isDigit = false)
    (rest : List Char) :
    munch2 (pad2 n ++ sep :: rest) = some (n, sep :: rest) := by
  have h := munch2_spec (pad2 n) (sep :: rest) (pad2_len n hn) (pad2_isDigit n)
    (by intro c hc; simp at hc; subst hc; exact hsep)
  rwa [valBE_pad2 n hn] at h

theorem munch2_pad2_end (n : ℕ) (hn : n < 100) :
    munch2 (pad2 n) = some (n, []) := by
  have h := munch2_spec (pad2 n) [] (pad2_len n hn) (pad2_isDigit n)
    (by intro c hc; simp at hc)
  rw [List.append_nil] at h
  rwa [valBE_pad2 n hn] at h

theorem munch4_natChars (n : ℕ) (ha : 1000 ≤ n) (hb : n ≤ 9999) (rest : List Char) :
    munch4 (natChars n ++ rest) = some (n, rest) := by
  have h := munch4_spec (natChars n) rest (natChars_len4 n ha hb) (natChars_isDigit n)
  rwa [valBE_natChars n (by omega)] at h

theorem parseDTChars_renderDT (dt : DT)
    (h1 : 1 ≤ dt.month) (h2 : dt.month ≤ 12)
    (h3 : 1 ≤ dt.day) (h4 : dt.day ≤ daysInMonth dt.year dt.month)
    (h5 : 1000 ≤ dt.year) (h6 : dt.year ≤ 9999)
    (h7 : dt.hour ≤ 23) (h8 : dt.minute ≤ 59) (h9 : dt.second ≤ 59) :
    parseDTChars (renderDT dt) = some dt := by
  obtain ⟨y, mo, dd, hh, mi, ss⟩ := dt
  dsimp only at h1 h2 h3 h4 h5 h6 h7 h8 h9
  have hdim : daysInMonth y mo ≤ 31 := by
    unfold daysInMonth
    split_ifs <;> omega
  unfold renderDT parseDTChars
  dsimp only
  rw [munch2_natChars mo (by omega) '/' (by decide)]
  simp only [Option.bind_eq_bind', Option.some_bind]
  rw [expectChar_self]
  simp only [Option.bind_eq_bind', Option.some_bind]
  rw [munch2_natChars dd (by omega) '/' (by decide)]
  simp only [Option.bind_eq_bind', Option.some_bind]
  rw [expectChar_self]
  simp only [Option.bind_eq_bind', Option.some_bind]
  rw [munch4_natChars y h5 h6]
  simp only [Option.bind_eq_bind', Option.some_bind]
  rw [expectChar_self]
  simp only [Option.bind_eq_bind', Option.some_bind]
  rw [munch2_natChars hh (by omega) ':' (by decide)]
  simp only [Option.bind_eq_bind', Option.some_bind]
  rw [expectChar_self]
  simp only [Option.bind_eq_bind', Option.some_bind]
  rw [munch2_pad2 mi (by omega) ':' (by decide)]
  simp only [Option.bind_eq_bind', Option.some_bind]
  rw [expectChar_self]
  simp only [Option.bind_eq_bind', Option.some_bind]
  rw [munch2_pad2_end ss (by omega)]
  simp only [Option.bind_eq_bind', Option.some_bind]
  rw [if_pos ⟨by trivial, h1, h2, h3, h4, by omega, h7, h8, h9⟩]

/-- C10: for every representable millisecond timestamp, `_parse_dt` successfully
parses the string produced by `fmt_dt` — even though `fmt_dt` emits unpadded
month, day and hour while the parser uses `%m/%d/%Y %H:%M:%S` — and the parsed
datetime equals the timestamp truncated to whole seconds.  (Timestamps from
year 10000 on are excluded: `datetime.fromtimestamp` itself raises there.) -/
theorem C10_fmt_parse_roundtrip (t : ℕ) (ht : t < 253402300800000) :
    _parse_dt (fmt_dt t) = some (msToDT t) ∧ msToDT t = msToDT (1000 * (t / 1000)) := by
  constructor
  · have hv := secsToDT_valid (t / 1000) (by unfold SECS_MAX; omega)
    obtain ⟨v1, v2, v3, v4, v5, v6, v7, v8, v9⟩ := hv
    unfold _parse_dt fmt_dt msToDT
    exact parseDTChars_renderDT _ v1 v2 v3 v4 v5 v6 (by omega) (by omega) (by omega)
  · unfold msToDT
    congr 1
    omega

/-- Witness for C10 at a concrete timestamp. -/
theorem C10_fmt_parse_roundtrip_witness :
    (1700000000000 : ℕ) < 253402300800000 ∧
    (_parse_dt (fmt_dt 1700000000000) = some (msToDT 1700000000000) ∧
      msToDT 1700000000000 = msToDT (1000 * (1700000000000 / 1000))) :=
  ⟨by norm_num, C10_fmt_parse_roundtrip 1700000000000 (by norm_num)⟩

/-! ## Retry, loan-math, dedup, watermark and snapshot-row theorems -/

theorem delays_cons (delay k : ℕ) :
    (List.range (k + 1)).map (fun j => delay * 2 ^ j)
      = delay :: (List.range k).map (fun j => 2 * delay * 2 ^ j) := by
  rw [List.range_succ_eq_map, List.map_cons, List.map_map]
  simp only [pow_zero, mul_one]
  congr 1
  apply List.map_congr_left
  intro j _
  simp only [Function.comp_apply, pow_succ]
  ring

theorem gsRetryGo_persistent {α : Type} (f : ℕ → GSRes α) :
    ∀ (n i delay : ℕ), (∀ j, j < n → f (i + j) = GSRes.rateLimited) →
      gsRetryGo f n i delay = (f (i + n), (List.range n).map (fun j => delay * 2 ^ j)) := by
  intro n
  induction n with
  | zero =>
    intro i delay _
    simp [gsRetryGo]
  | succ n ih =>
    intro i delay h
    have h0 : f i = GSRes.rateLimited := by simpa using h 0 (by omega)
    have hrec := ih (i + 1) (2 * delay) (fun j hj => by
      have hj1 := h (j + 1) (by omega)
      rwa [show i + (j + 1) = i + 1 + j by omega] at hj1)
    simp only [gsRetryGo, h0, hrec, delays_cons]
    rw [show i + 1 + n = i + (n + 1) by omega]

theorem gsRetryGo_stop {α : Type} (f : ℕ → GSRes α) :
    ∀ (n i delay k : ℕ), k < n → (∀ j, j < k → f (i + j) = GSRes.rateLimited) →
      (f (i + k) = GSRes.err →
        gsRetryGo f n i delay = (GSRes.err, (List.range k).map (fun j => delay * 2 ^ j))) ∧
      (∀ a, f (i + k) = GSRes.ok a →
        gsRetryGo f n i delay = (GSRes.ok a, (List.range k).map (fun j => delay * 2 ^ j))) := by
  intro n
  induction n with
  | zero => intro i delay k hk; omega
  | succ n ih =>
    intro i delay k hk h
    rcases Nat.eq_zero_or_pos k with rfl | hkpos
    · constructor
      · intro herr
        simp only [Nat.add_zero] at herr
        simp [gsRetryGo, herr]
      · intro a hok
        simp only [Nat.add_zero] at hok
        simp [gsRetryGo, hok]
    · obtain ⟨k2, rfl⟩ : ∃ k2, k = k2 + 1 := ⟨k - 1, by omega⟩
      have h0 : f i = GSRes.rateLimited := by simpa using h 0 (by omega)
      have hrec := ih (i + 1) (2 * delay) k2 (by omega) (fun j hj => by
        have hj1 := h (j + 1) (by omega)
        rwa [show i + (j + 1) = i + 1 + j by omega] at hj1)
      have hik : i + (k2 + 1) = i + 1 + k2 := by omega
      constructor
      · intro herr
        rw [hik] at herr
        simp only [gsRetryGo, h0, hrec.1 herr, delays_cons]
      · intro a hok
        rw [hik] at hok
        simp only [gsRetryGo, h0, hrec.2 a hok, delays_cons]

/-- C5: `gs_retry` makes up to 6 guarded attempts; under persistent rate-limit
failures it sleeps exactly 1,2,4,8,16,32 and then makes one final unguarded
attempt whose outcome (success or failure) is returned/propagated; an error
not classified as rate-limit at attempt `k` propagates immediately, with no
further sleeps; a success returns immediately. -/
theorem C5_gs_retry_policy {α : Type} (f : ℕ → GSRes α) :
    ((∀ i, i < 6 → f i = GSRes.rateLimited) → gs_retry f = (f 6, [1, 2, 4, 8, 16, 32])) ∧
    (∀ k, k < 6 → (∀ i, i < k → f i = GSRes.rateLimited) → f k = GSRes.err →
      gs_retry f = (GSRes.err, (List.range k).map (fun j => 2 ^ j))) ∧
    (∀ k, k < 6 → (∀ i, i < k → f i = GSRes.rateLimited) → ∀ a, f k = GSRes.ok a →
      gs_retry f = (GSRes.ok a, (List.range k).map (fun j => 2 ^ j))) := by
  refine ⟨?_, ?_, ?_⟩
  · intro h
    have hp := gsRetryGo_persistent f 6 0 1 (fun j hj => by simpa using h j hj)
    have hlist : (List.range 6).map (fun j => 1 * 2 ^ j) = [1, 2, 4, 8, 16, 32] := by decide
    rw [gs_retry, hp, hlist]
  · intro k hk hrl herr
    have hs := (gsRetryGo_stop f 6 0 1 k hk (fun j hj => by simpa using hrl j hj)).1
      (by simpa using herr)
    rw [gs_retry, hs]
    congr 1
    apply List.map_congr_left
    intro j _
    ring
  · intro k hk hrl a hok
    have hs := (gsRetryGo_stop f 6 0 1 k hk (fun j hj => by simpa using hrl j hj)).2 a
      (by simpa using hok)
    rw [gs_retry, hs]
    congr 1
    apply List.map_congr_left
    intro j _
    ring

/-- Witness for C5: a persistent rate-limit produces delays 1,2,4,8,16,32 and
the final unguarded attempt's failure is propagated. -/
theorem C5_gs_retry_policy_witness :
    gs_retry (fun _ => (GSRes.rateLimited : GSRes Unit))
      = (GSRes.rateLimited, [1, 2, 4, 8, 16, 32]) := by
  have h := (C5_gs_retry_policy (fun _ => (GSRes.rateLimited : GSRes Unit))).1 (fun i _ => rfl)
  simpa using h

/-- C6 counterexample: the snapshot row carries `0.0` — not a null/empty
value — in the funding-APR field (and likewise its reverse). -/
theorem C6_snapshot_row_counterexample :
    (by_snapshot_row "1/1/2024 0:00:00" (some 5)).getD 1 Cell.null = Cell.num 0 ∧
    Cell.num 0 ≠ Cell.null := by decide

/-- C6 amended: the snapshot row has 11 fields: the formatted timestamp, the
numeric value `0.0` in the two funding-APR fields, the interest percentage,
and null in every remaining field (spot, loan, caps, LTVs, derived). -/
theorem C6_snapshot_row_shape (ts : String) (d : Option ℚ) :
    (by_snapshot_row ts d).length = 11 ∧
    (by_snapshot_row ts d).getD 0 Cell.null = Cell.str ts ∧
    (by_snapshot_row ts d).getD 1 Cell.null = Cell.num 0 ∧
    (by_snapshot_row ts d).getD 2 Cell.null = Cell.num 0 ∧
    (by_snapshot_row ts d).getD 3 Cell.null = optCell d ∧
    ∀ j, 4 ≤ j → j ≤ 10 → (by_snapshot_row ts d).getD j Cell.null = Cell.null := by
  refine ⟨rfl, rfl, rfl, rfl, rfl, ?_⟩
  intro j h4 h10
  interval_cases j <;> rfl

/-- Witness for C6 (amended) at a concrete field index. -/
theorem C6_snapshot_row_shape_witness :
    4 ≤ 4 ∧ 4 ≤ 10 ∧ (by_snapshot_row "x" none).getD 4 Cell.null = Cell.null :=
  ⟨by norm_num, by norm_num, (C6_snapshot_row_shape "x" none).2.2.2.2.2 4 (by norm_num) (by norm_num)⟩

/-- C8: `collateral_needed_usdt` and `liquidation_start_price` — the defined
cases divide as specified, the undefined cases return `None`, and the two
concrete examples hold. -/
theorem C8_loan_math :
    (∀ l i : ℚ, l ≠ 0 → 0 < i →
      collateral_needed_usdt (some l) (some i) = some (l / i)) ∧
    (∀ loan init : Option ℚ, (loan = none ∨ loan = some 0 ∨ init = none ∨
        (∃ q, init = some q ∧ q ≤ 0)) →
      collateral_needed_usdt loan init = none) ∧
    (∀ s i l : ℚ, 0 < s → i ≠ 0 → l ≠ 0 →
      liquidation_start_price (some s) (some i) (some l) = some (s * (l / i))) ∧
    (∀ spot init liq : Option ℚ, ((∃ q, spot = some q ∧ q ≤ 0) ∨ spot = none ∨
        init = none ∨ init = some 0 ∨ liq = none ∨ liq = some 0) →
      liquidation_start_price spot init liq = none) ∧
    collateral_needed_usdt (some 1000) (some (1 / 2)) = some 2000 ∧
    liquidation_start_price (some 100) (some (1 / 2)) (some (2 / 5)) = some 80 := by
  refine ⟨?_, ?_, ?_, ?_, ?_, ?_⟩
  · intro l i hl hi
    simp only [collateral_needed_usdt]
    rw [if_neg (by push_neg; exact ⟨hl, hi.ne', hi⟩)]
  · intro loan init h
    rcases h with rfl | rfl | rfl | ⟨q, rfl, hq⟩
    · rfl
    · cases init with
      | none => rfl
      | some i => simp [collateral_needed_usdt]
    · cases loan <;> rfl
    · cases loan with
      | none => rfl
      | some l =>
        simp only [collateral_needed_usdt]
        rw [if_pos (Or.inr (Or.inr hq))]
  · intro s i l hs hi hl
    simp only [liquidation_start_price]
    rw [if_neg (by push_neg; exact ⟨hs.ne', hs, hi, hl⟩)]
  · intro spot init liq h
    rcases h with ⟨q, rfl, hq⟩ | rfl | rfl | rfl | rfl | rfl
    · cases init with
      | none => rfl
      | some i =>
        cases liq with
        | none => rfl
        | some l =>
          simp only [liquidation_start_price]
          rw [if_pos (Or.inr (Or.inl hq))]
    · rfl
    · cases spot <;> rfl
    · cases spot with
      | none => rfl
      | some s =>
        cases liq with
        | none => rfl
        | some l => simp [liquidation_start_price]
    · cases spot <;> cases init <;> rfl
    · cases spot with
      | none => cases init <;> rfl
      | some s =>
        cases init with
        | none => rfl
        | some i => simp [liquidation_start_price]
  · norm_num [collateral_needed_usdt]
  · norm_num [liquidation_start_price]

/-- Witness for C8 at the spec example. -/
theorem C8_loan_math_witness :
    (1000 : ℚ) ≠ 0 ∧ (0 : ℚ) < 1 / 2 ∧
    collateral_needed_usdt (some 1000) (some (1 / 2)) = some (1000 / (1 / 2)) :=
  ⟨by norm_num, by norm_num, C8_loan_math.1 1000 (1 / 2) (by norm_num) (by norm_num)⟩

theorem rowKey_normalizeRow (r : List Cell) (h : r ≠ []) :
    rowKey (normalizeRow r) = rowKey r := by
  cases r with
  | nil => exact absurd rfl h
  | cons a t => rfl

/-- Unfolding equation: no write when duplicate filtering leaves nothing
(this covers the empty-candidate case too). -/
theorem append_eq_no_new (existing : List String) (rows : List (List Cell))
    (h : rows.filter (fun r => !r.isEmpty && !(existing.contains (rowKey r))) = []) :
    append_new_unique_rows existing rows = (existing, none) := by
  simp only [append_new_unique_rows]
  by_cases hrows : rows.isEmpty
  · rw [if_pos hrows]
  · rw [if_neg hrows, h]
    rfl

/-- Unfolding equation: the write case. -/
theorem append_eq_write (existing : List String) (rows : List (List Cell))
    (h1 : ¬rows.isEmpty = true)
    (h2 : ¬(rows.filter (fun r => !r.isEmpty && !(existing.contains (rowKey r)))).isEmpty = true) :
    append_new_unique_rows existing rows
      = (existing ++
          ((rows.filter (fun r => !r.isEmpty && !(existing.contains (rowKey r)))).map
            normalizeRow).map rowKey,
        some ((rows.filter (fun r => !r.isEmpty && !(existing.contains (rowKey r)))).map
          normalizeRow)) := by
  simp only [append_new_unique_rows]
  rw [if_neg h1, if_neg h2]

/-- Calling `append_new_unique_rows` with a cache already containing the key
of every non-empty candidate appends nothing. -/
theorem append_second_call (c : List String) (rows : List (List Cell))
    (h : ∀ r ∈ rows, r ≠ [] → rowKey r ∈ c) :
    append_new_unique_rows c rows = (c, none) := by
  have hfil : rows.filter (fun r => !r.isEmpty && !(c.contains (rowKey r))) = [] := by
    rw [List.filter_eq_nil_iff]
    intro r hr
    by_cases hne : r = []
    · subst hne
      simp
    · simp [List.contains, List.elem_iff, hne, h r hr hne]
  exact append_eq_no_new c rows hfil

/-- C1 counterexample: two rows with the same key in one batch are BOTH
accepted — the filter is computed against the cache as of entry, before any
key is merged, so a later in-batch duplicate is not rejected. -/
theorem C1_within_batch_duplicate_counterexample :
    ((append_new_unique_rows [] [[Cell.str "k"], [Cell.str "k"]]).2.getD []).map rowKey
      = ["k", "k"] := by decide

/-- C1 amended: `filter_new` accepts exactly the non-empty candidates whose
key is absent from the cache as of the start of the call, in order; every
non-empty candidate's key is in the cache afterwards (accepted keys are
merged after filtering), so re-ingesting the same snapshot appends zero rows
— but a duplicate within one batch is not rejected. -/
theorem C1_dedup_filter_and_idempotence (existing : List String) (rows : List (List Cell)) :
    ((append_new_unique_rows existing rows).2.getD []
      = (rows.filter (fun r => !r.isEmpty && !(existing.contains (rowKey r)))).map normalizeRow) ∧
    (∀ r ∈ rows, r ≠ [] → rowKey r ∈ (append_new_unique_rows existing rows).1) ∧
    (append_new_unique_rows (append_new_unique_rows existing rows).1 rows
      = ((append_new_unique_rows existing rows).1, none)) := by
  have hkey : ∀ r ∈ rows, r ≠ [] → rowKey r ∈ (append_new_unique_rows existing rows).1 := by
    intro r hr hne
    have hrows : ¬rows.isEmpty = true := by
      intro hempty
      rw [List.isEmpty_iff] at hempty
      subst hempty
      simp at hr
    by_cases hc : rowKey r ∈ existing
    · by_cases hta : (rows.filter (fun r => !r.isEmpty && !(existing.contains (rowKey r)))).isEmpty
      · rw [append_eq_no_new existing rows (List.isEmpty_iff.mp hta)]
        exact hc
      · rw [append_eq_write existing rows hrows hta]
        exact List.mem_append_left _ hc
    · have hne2 : r.isEmpty = false := List.isEmpty_eq_false.mpr hne
      have hfilmem : r ∈ rows.filter (fun r => !r.isEmpty && !(existing.contains (rowKey r))) := by
        rw [List.mem_filter]
        exact ⟨hr, by simp [hne2, List.contains, List.elem_iff, hc]⟩
      have hta : ¬(rows.filter (fun r => !r.isEmpty && !(existing.contains (rowKey r)))).isEmpty = true := by
        intro hempty
        rw [List.isEmpty_iff] at hempty
        rw [hempty] at hfilmem
        simp at hfilmem
      rw [append_eq_write existing rows hrows hta]
      refine List.mem_append_right _ ?_
      have h1 := List.mem_map_of_mem normalizeRow hfilmem
      have h2 := List.mem_map_of_mem rowKey h1
      rwa [rowKey_normalizeRow r hne] at h2
  refine ⟨?_, hkey, append_second_call _ rows hkey⟩
  by_cases hta : (rows.filter (fun r => !r.isEmpty && !(existing.contains (rowKey r)))).isEmpty
  · have hta2 := List.isEmpty_iff.mp hta
    rw [append_eq_no_new existing rows hta2, hta2]
    rfl
  · have hrows : ¬rows.isEmpty = true := by
      intro hempty
      rw [List.isEmpty_iff] at hempty
      subst hempty
      simp at hta
    rw [append_eq_write existing rows hrows hta]
    rfl

/-- Witness for C1 (amended): a fresh key is accepted and merged. -/
theorem C1_dedup_filter_and_idempotence_witness :
    [Cell.str "b"] ∈ ([[Cell.str "a"], [Cell.str "b"]] : List (List Cell)) ∧
    ([Cell.str "b"] : List Cell) ≠ [] ∧
    rowKey [Cell.str "b"] ∈ (append_new_unique_rows ["a"] [[Cell.str "a"], [Cell.str "b"]]).1 :=
  ⟨by simp, by simp,
    (C1_dedup_filter_and_idempotence ["a"] [[Cell.str "a"], [Cell.str "b"]]).2.1
      [Cell.str "b"] (by simp) (by simp)⟩

/-- C9: `append_new_unique_rows` performs no write for an empty candidate list
or when duplicate filtering leaves nothing; every written row is the
corresponding accepted candidate normalized to exactly 11 fields — truncated
past the 11th, padded with `""` — and a single-field row stores as 11 fields
with 10 empty. -/
theorem C9_append_row_normalization (existing : List String) (rows : List (List Cell)) :
    (rows = [] → (append_new_unique_rows existing rows).2 = none) ∧
    (rows.filter (fun r => !r.isEmpty && !(existing.contains (rowKey r))) = [] →
      (append_new_unique_rows existing rows).2 = none) ∧
    (∀ out, (append_new_unique_rows existing rows).2 = some out →
      out = (rows.filter (fun r => !r.isEmpty && !(existing.contains (rowKey r)))).map normalizeRow ∧
      ∀ r ∈ out, r.length = 11) ∧
    (∀ r : List Cell, 11 ≤ r.length → normalizeRow r = r.take 11) ∧
    (∀ r : List Cell, r.length ≤ 11 →
      normalizeRow r = r ++ List.replicate (11 - r.length) (Cell.str "")) ∧
    normalizeRow [Cell.str "d"] = Cell.str "d" :: List.replicate 10 (Cell.str "") := by
  have hlen : ∀ r : List Cell, (normalizeRow r).length = 11 := by
    intro r
    simp only [normalizeRow, List.length_append, List.length_take, List.length_replicate]
    omega
  refine ⟨?_, ?_, ?_, ?_, ?_, by decide⟩
  · intro h
    subst h
    rfl
  · intro h
    rw [append_eq_no_new existing rows h]
  · intro out hout
    by_cases hta : (rows.filter (fun r => !r.isEmpty && !(existing.contains (rowKey r)))).isEmpty
    · rw [append_eq_no_new existing rows (List.isEmpty_iff.mp hta)] at hout
      simp at hout
    · have hrows : ¬rows.isEmpty = true := by
        intro hempty
        rw [List.isEmpty_iff] at hempty
        subst hempty
        simp at hta
      rw [append_eq_write existing rows hrows hta] at hout
      simp only [Option.some.injEq] at hout
      subst hout
      refine ⟨rfl, ?_⟩
      intro r hrmem
      obtain ⟨r0, _, rfl⟩ := List.mem_map.mp hrmem
      exact hlen r0
  · intro r h
    simp [normalizeRow, show 11 - r.length = 0 from by omega]
  · intro r h
    simp [normalizeRow, List.take_of_length_le h]

/-- Witness for C9 at the no-op case. -/
theorem C9_append_row_normalization_witness :
    (append_new_unique_rows [] ([] : List (List Cell))).2 = none :=
  (C9_append_row_normalization [] []).1 rfl

/-- C7 counterexample: a malformed timestamp string is NOT excluded from the
duplicate-key set — `get_existing_dates_set` keeps every non-empty string. -/
theorem C7_dupset_keeps_malformed_counterexample :
    _parse_dt "garbage" = none ∧ "garbage" ∈ get_existing_dates_set ["Date", "garbage"] := by
  constructor
  · rfl
  · simp [get_existing_dates_set]

/-- C7 amended: a stored row whose column-1 string fails to parse contributes
nothing to the watermark (removing it leaves `get_last_funding_dt`
unchanged); the duplicate-key set, however, contains every non-empty
column-1 string of the data rows, parseable or not. -/
theorem C7_watermark_skips_malformed (pre post : List (List String)) (row : List String)
    (hbad : _parse_dt (row.headD "") = none) :
    (get_last_funding_dt (pre ++ row :: post) = get_last_funding_dt (pre ++ post)) ∧
    (∀ vals v, v ∈ get_existing_dates_set vals ↔ v ∈ vals.drop 1 ∧ v ≠ "") := by
  constructor
  · have hstep : ∀ acc, lastFundingStep acc row = acc := by
      intro acc
      cases row with
      | nil => rfl
      | cons a t =>
        have hbad2 : _parse_dt a = none := by simpa using hbad
        simp only [lastFundingStep]
        rw [if_neg (by simp)]
        split_ifs with hcond
        · simp [hbad2]
        · rfl
    unfold get_last_funding_dt
    rw [List.foldl_append, List.foldl_append, List.foldl_cons, hstep]
  · intro vals v
    simp [get_existing_dates_set, List.mem_filter]

/-- Witness for C7 (amended) at a malformed row. -/
theorem C7_watermark_skips_malformed_witness :
    _parse_dt ((["garbage", "1"] : List String).headD "") = none ∧
    get_last_funding_dt ([] ++ ["garbage", "1"] :: []) = get_last_funding_dt ([] ++ []) :=
  ⟨by rfl, (C7_watermark_skips_malformed [] [] ["garbage", "1"] (by rfl)).1⟩

/-! ## Nearest-match selection, gap policy, and reconciliation frame -/

theorem rateKeyLt_iff (t : ℤ) (p q : ℤ × ℚ) :
    rateKeyLt t p q = true ↔ keyN t p < keyN t q := by
  simp only [rateKeyLt, keyN, Bool.or_eq_true, Bool.and_eq_true, decide_eq_true_eq, beq_iff_eq]
  split_ifs <;> omega

theorem foldl_minBy (t : ℤ) :
    ∀ (cs : List (ℤ × ℚ)) (c : ℤ × ℚ),
      (cs.foldl (fun best p => if rateKeyLt t p best then p else best) c) ∈ c :: cs ∧
      keyN t (cs.foldl (fun best p => if rateKeyLt t p best then p else best) c) ≤ keyN t c ∧
      ∀ p ∈ cs, keyN t (cs.foldl (fun best p => if rateKeyLt t p best then p else best) c)
        ≤ keyN t p := by
  intro cs
  induction cs with
  | nil =>
    intro c
    refine ⟨by simp, le_refl _, by simp⟩
  | cons p ps ih =>
    intro c
    simp only [List.foldl_cons]
    cases h : rateKeyLt t p c with
    | false =>
      have hpc : ¬keyN t p < keyN t c := by
        rw [← rateKeyLt_iff]
        simp [h]
      simp only [h, Bool.false_eq_true, if_false, ite_false]
      obtain ⟨h1, h2, h3⟩ := ih c
      refine ⟨?_, h2, ?_⟩
      · rcases List.mem_cons.mp h1 with h4 | h4
        · simp [h4]
        · simp [List.mem_cons_of_mem, h4]
      · intro q hq
        rcases List.mem_cons.mp hq with rfl | hq2
        · omega
        · exact h3 q hq2
    | true =>
      have hpc : keyN t p < keyN t c := (rateKeyLt_iff t p c).mp h
      simp only [h, if_true, ite_true]
      obtain ⟨h1, h2, h3⟩ := ih p
      refine ⟨?_, by omega, ?_⟩
      · rcases List.mem_cons.mp h1 with h4 | h4
        · simp [h4]
        · simp [List.mem_cons_of_mem, h4]
      · intro q hq
        rcases List.mem_cons.mp hq with rfl | hq2
        · omega
        · exact h3 q hq2

theorem minByKey_spec (t : ℤ) (l : List (ℤ × ℚ)) (h : l ≠ []) :
    ∃ best, minByKey t l = some best ∧ best ∈ l ∧ ∀ p ∈ l, keyN t best ≤ keyN t p := by
  cases l with
  | nil => exact absurd rfl h
  | cons c cs =>
    obtain ⟨h1, h2, h3⟩ := foldl_minBy t cs c
    refine ⟨_, rfl, h1, ?_⟩
    intro p hp
    rcases List.mem_cons.mp hp with rfl | hp2
    · exact h2
    · exact h3 p hp2

theorem sorted_getD_lt_iff (x : ℤ) :
    ∀ (l : List ℤ), List.Pairwise (· ≤ ·) l →
      ∀ i, i < l.length → (l.getD i 0 < x ↔ i < l.countP (fun a => decide (a < x))) := by
  intro l
  induction l with
  | nil => intro _ i hi; simp at hi
  | cons a tl ih =>
    intro hs i hi
    rw [List.pairwise_cons] at hs
    obtain ⟨ha, htl⟩ := hs
    by_cases hax : a < x
    · have hcntc : (a :: tl).countP (fun y => decide (y < x))
          = tl.countP (fun y => decide (y < x)) + 1 := by
        rw [List.countP_cons]
        simp [hax]
      rw [hcntc]
      cases i with
      | zero =>
        simp only [List.getD_cons_zero]
        constructor
        · intro
          omega
        · intro
          exact hax
      | succ i2 =>
        have hi2 : i2 < tl.length := by simpa using hi
        simp only [List.getD_cons_succ]
        rw [ih htl i2 hi2]
        omega
    · have hcntc : (a :: tl).countP (fun y => decide (y < x)) = 0 := by
        rw [List.countP_cons]
        have h0 : tl.countP (fun y => decide (y < x)) = 0 := by
          rw [List.countP_eq_zero]
          intro b hb
          simp only [decide_eq_true_eq]
          have := ha b hb
          omega
        simp [h0, hax]
      rw [hcntc]
      cases i with
      | zero =>
        simp only [List.getD_cons_zero]
        constructor
        · intro hlt
          exact absurd hlt hax
        · intro h0
          omega
      | succ i2 =>
        have hi2 : i2 < tl.length := by simpa using hi
        simp only [List.getD_cons_succ]
        constructor
        · intro hb
          exfalso
          have hmem : tl.getD i2 0 ∈ tl := by
            rw [List.getD_eq_getElem?_getD, List.getElem?_eq_getElem hi2]
            exact List.getElem_mem hi2
          have := ha _ hmem
          omega
        · intro hb
          omega

theorem bisectGo_le (l : List ℤ) (x : ℤ) :
    ∀ fuel lo hi, lo ≤ hi → lo ≤ bisectGo l x fuel lo hi ∧ bisectGo l x fuel lo hi ≤ hi := by
  intro fuel
  induction fuel with
  | zero => intro lo hi h; simp [bisectGo]; omega
  | succ fuel ih =>
    intro lo hi h
    simp only [bisectGo]
    by_cases hlh : lo < hi
    · rw [if_pos hlh]
      by_cases hcmp : l.getD ((lo + hi) / 2) 0 < x
      · rw [if_pos hcmp]
        have := ih ((lo + hi) / 2 + 1) hi (by omega)
        omega
      · rw [if_neg hcmp]
        have := ih lo ((lo + hi) / 2) (by omega)
        omega
    · rw [if_neg hlh]
      omega

theorem bisect_left_le_length (l : List ℤ) (x : ℤ) : bisect_left l x ≤ l.length :=
  (bisectGo_le l x l.length 0 l.length (by omega)).2

theorem bisectGo_eq (l : List ℤ) (x : ℤ) (hs : List.Pairwise (· ≤ ·) l) :
    ∀ fuel lo hi, lo ≤ l.countP (fun a => decide (a < x)) →
      l.countP (fun a => decide (a < x)) ≤ hi → hi ≤ l.length → hi - lo ≤ fuel →
      bisectGo l x fuel lo hi = l.countP (fun a => decide (a < x)) := by
  intro fuel
  induction fuel with
  | zero =>
    intro lo hi h1 h2 h3 h4
    simp only [bisectGo]
    omega
  | succ fuel ih =>
    intro lo hi h1 h2 h3 h4
    simp only [bisectGo]
    by_cases hlh : lo < hi
    · rw [if_pos hlh]
      have hmlt : (lo + hi) / 2 < l.length := by omega
      by_cases hcmp : l.getD ((lo + hi) / 2) 0 < x
      · rw [if_pos hcmp]
        have hlt := (sorted_getD_lt_iff x l hs ((lo + hi) / 2) hmlt).mp hcmp
        exact ih ((lo + hi) / 2 + 1) hi (by omega) h2 h3 (by omega)
      · rw [if_neg hcmp]
        have hcm : l.countP (fun a => decide (a < x)) ≤ (lo + hi) / 2 := by
          by_contra hh
          push_neg at hh
          exact hcmp ((sorted_getD_lt_iff x l hs ((lo + hi) / 2) hmlt).mpr hh)
        exact ih lo ((lo + hi) / 2) h1 hcm (by omega) (by omega)
    · rw [if_neg hlh]
      omega

theorem bisect_left_sorted (l : List ℤ) (x : ℤ) (hs : List.Pairwise (· ≤ ·) l) :
    bisect_left l x = l.countP (fun a => decide (a < x)) := by
  have hcle : l.countP (fun a => decide (a < x)) ≤ l.length :=
    List.countP_le_length (fun a => decide (a < x))
  exact bisectGo_eq l x hs l.length 0 l.length (by omega) hcle (le_refl _) (by omega)

theorem candList_mem (hist : List (ℤ × ℚ)) (pos : ℕ) (hle : pos ≤ hist.length) :
    ∀ c ∈ candList hist pos, c ∈ hist := by
  intro c hc
  unfold candList at hc
  rw [List.mem_append] at hc
  rcases hc with hc | hc
  · split_ifs at hc with h0
    · simp only [List.mem_singleton] at hc
      subst hc
      have hlt : pos - 1 < hist.length := by omega
      rw [List.getD_eq_getElem?_getD, List.getElem?_eq_getElem hlt]
      exact List.getElem_mem hlt
    · simp at hc
  · split_ifs at hc with h0
    · simp only [List.mem_singleton] at hc
      subst hc
      rw [List.getD_eq_getElem?_getD, List.getElem?_eq_getElem h0]
      exact List.getElem_mem h0
    · simp at hc

/-- C3: on a timestamp-sorted reference series, `pick_closest_rate`
binary-searches the insertion position (the count of strictly smaller
timestamps), considers only the two neighbouring candidates, and returns the
rate of the candidate minimizing `(|Δt|, tie_rank)`; in particular target 140
on `[(100,0.1),(200,0.2)]` matches `(100,0.1)` and the equidistant target 150
also matches `(100,0.1)`. -/
theorem C3_pick_closest_rate :
    (∀ (hist : List (ℤ × ℚ)) (t : ℤ),
      List.Pairwise (fun a b => a.1 ≤ b.1) hist → hist ≠ [] →
      bisect_left (hist.map Prod.fst) t
          = (hist.map Prod.fst).countP (fun a => decide (a < t)) ∧
      ∃ best ∈ candList hist (bisect_left (hist.map Prod.fst) t),
        pick_closest_rate hist t = some best.2 ∧
        ∀ c ∈ candList hist (bisect_left (hist.map Prod.fst) t),
          keyN t best ≤ keyN t c) ∧
    pick_closest_rate [((100 : ℤ), (1 / 10 : ℚ)), (200, 1 / 5)] 140 = some (1 / 10) ∧
    pick_closest_rate [((100 : ℤ), (1 / 10 : ℚ)), (200, 1 / 5)] 150 = some (1 / 10) := by
  refine ⟨?_, by rfl, by rfl⟩
  intro hist t hsort hne
  have hs2 : List.Pairwise (· ≤ ·) (hist.map Prod.fst) := by
    rw [List.pairwise_map]
    exact hsort
  refine ⟨bisect_left_sorted _ t hs2, ?_⟩
  have hlen0 : 0 < hist.length := List.length_pos.mpr hne
  have hposle : bisect_left (hist.map Prod.fst) t ≤ hist.length := by
    have := bisect_left_le_length (hist.map Prod.fst) t
    simpa using this
  have hcand : candList hist (bisect_left (hist.map Prod.fst) t) ≠ [] := by
    unfold candList
    by_cases h0 : 0 < bisect_left (hist.map Prod.fst) t
    · simp [h0]
    · have hz : bisect_left (hist.map Prod.fst) t = 0 := by omega
      simp [hz, hlen0]
  obtain ⟨best, hmin, hmem, hall⟩ := minByKey_spec t _ hcand
  refine ⟨best, hmem, ?_, hall⟩
  simp only [pick_closest_rate]
  rw [if_neg (by simp [hne]), hmin]

/-- Witness for C3 at the spec's example series and target. -/
theorem C3_pick_closest_rate_witness :
    bisect_left ([((100 : ℤ), (1 / 10 : ℚ)), (200, 1 / 5)].map Prod.fst) 140
        = ([((100 : ℤ), (1 / 10 : ℚ)), (200, 1 / 5)].map Prod.fst).countP
            (fun a => decide (a < 140)) ∧
    ∃ best ∈ candList [((100 : ℤ), (1 / 10 : ℚ)), (200, 1 / 5)]
        (bisect_left ([((100 : ℤ), (1 / 10 : ℚ)), (200, 1 / 5)].map Prod.fst) 140),
      pick_closest_rate [((100 : ℤ), (1 / 10 : ℚ)), (200, 1 / 5)] 140 = some best.2 ∧
      ∀ c ∈ candList [((100 : ℤ), (1 / 10 : ℚ)), (200, 1 / 5)]
          (bisect_left ([((100 : ℤ), (1 / 10 : ℚ)), (200, 1 / 5)].map Prod.fst) 140),
        keyN 140 best ≤ keyN 140 c :=
  C3_pick_closest_rate.1 [((100 : ℤ), (1 / 10 : ℚ)), (200, 1 / 5)] 140 (by decide) (by decide)

theorem foldr_alignMatch (snaps : List (ℤ × ℚ)) (gap : ℤ) :
    ∀ (targets : List (ℤ × ℕ)) (u : ℕ × ℚ),
      u ∈ targets.foldr (alignMatchStep snaps gap) [] →
      ∃ tt, (tt, u.1) ∈ targets ∧
        ∃ best ∈ candList snaps (bisect_left (snaps.map Prod.fst) tt),
          u.2 = best.2 ∧ |best.1 - tt| ≤ gap := by
  intro targets
  induction targets with
  | nil => intro u hu; simp at hu
  | cons ti ts ih =>
    intro u hu
    rw [List.foldr_cons] at hu
    simp only [alignMatchStep] at hu
    split at hu
    next hmin =>
      obtain ⟨tt, htt, rest⟩ := ih u hu
      exact ⟨tt, List.mem_cons_of_mem _ htt, rest⟩
    next best hmin =>
      split_ifs at hu with hgap
      · rcases List.mem_cons.mp hu with rfl | hu2
        · refine ⟨ti.1, List.mem_cons_self _ _, best, ?_, rfl, hgap⟩
          have hnenil : candList snaps (bisect_left (snaps.map Prod.fst) ti.1) ≠ [] := by
            intro hnil
            rw [hnil] at hmin
            simp [minByKey] at hmin
          obtain ⟨b2, hb2, hb2mem, _⟩ := minByKey_spec ti.1 _ hnenil
          rw [hmin] at hb2
          simp only [Option.some.injEq] at hb2
          subst hb2
          exact hb2mem
        · obtain ⟨tt, htt, rest⟩ := ih u hu2
          exact ⟨tt, List.mem_cons_of_mem _ htt, rest⟩
      · obtain ⟨tt, htt, rest⟩ := ih u hu
        exact ⟨tt, List.mem_cons_of_mem _ htt, rest⟩

theorem insertSnap_mem (p : ℤ × ℚ) :
    ∀ (l : List (ℤ × ℚ)) (q : ℤ × ℚ), q ∈ insertSnap p l → q = p ∨ q ∈ l := by
  intro l
  induction l with
  | nil => intro q hq; simpa [insertSnap] using hq
  | cons r rs ih =>
    intro q hq
    simp only [insertSnap] at hq
    split_ifs at hq with hlt
    · rcases List.mem_cons.mp hq with rfl | hq2
      · exact Or.inl rfl
      · exact Or.inr hq2
    · rcases List.mem_cons.mp hq with rfl | hq2
      · exact Or.inr (List.mem_cons_self _ _)
      · rcases ih q hq2 with h | h
        · exact Or.inl h
        · exact Or.inr (List.mem_cons_of_mem _ h)

theorem sortSnaps_mem (l : List (ℤ × ℚ)) : ∀ q ∈ sortSnaps l, q ∈ l := by
  unfold sortSnaps
  suffices h : ∀ (l : List (ℤ × ℚ)) (acc : List (ℤ × ℚ)) (q : ℤ × ℚ),
      q ∈ l.foldl (fun acc p => insertSnap p acc) acc → q ∈ acc ∨ q ∈ l by
    intro q hq
    rcases h l [] q hq with h2 | h2
    · simp at h2
    · exact h2
  intro l
  induction l with
  | nil => intro acc q hq; exact Or.inl hq
  | cons p ps ih =>
    intro acc q hq
    rw [List.foldl_cons] at hq
    rcases ih (insertSnap p acc) q hq with h2 | h2
    · rcases insertSnap_mem p acc q h2 with h3 | h3
      · exact Or.inr (h3 ▸ List.mem_cons_self _ _)
      · exact Or.inl h3
    · exact Or.inr (List.mem_cons_of_mem _ h2)

theorem align_updates_spec (vals : List (List String)) (u : ℕ × ℚ)
    (hu : u ∈ align_bybit_interest_to_funding_updates vals) :
    ∃ tt, (tt, u.1) ∈ (alignScan 2 vals).2 ∧
      ∃ s ∈ (alignScan 2 vals).1, u.2 = s.2 ∧
        |s.1 - tt| ≤ (BYBIT_ALIGN_MAX_GAP_HOURS : ℤ) * 3600 * 1000 := by
  simp only [align_bybit_interest_to_funding_updates] at hu
  by_cases h1 : vals.isEmpty
  · rw [if_pos h1] at hu
    simp at hu
  · rw [if_neg h1] at hu
    by_cases h2 : (alignScan 2 vals).1.isEmpty || (alignScan 2 vals).2.isEmpty
    · rw [if_pos h2] at hu
      simp at hu
    · rw [if_neg h2] at hu
      obtain ⟨tt, htt, best, hbmem, hbval, hbgap⟩ :=
        foldr_alignMatch (sortSnaps (alignScan 2 vals).1)
          ((BYBIT_ALIGN_MAX_GAP_HOURS : ℤ) * 3600 * 1000) (alignScan 2 vals).2 u hu
      refine ⟨tt, htt, best, ?_, hbval, hbgap⟩
      have hle : bisect_left ((sortSnaps (alignScan 2 vals).1).map Prod.fst) tt
          ≤ (sortSnaps (alignScan 2 vals).1).length := by
        have hb := bisect_left_le_length ((sortSnaps (alignScan 2 vals).1).map Prod.fst) tt
        simpa using hb
      exact sortSnaps_mem _ best (candList_mem _ _ hle best hbmem)

/-- C2 counterexample: `pick_closest_rate` (the Binance interest-rate lookup)
has no gap check — with `S = [(100, 0.1)]` and target `t = 5000` it returns
`0.1` although `|Δt| = 4900` exceeds the gap tolerance 1000 of the claim's
example. -/
theorem C2_no_gap_in_pick_closest_counterexample :
    pick_closest_rate [((100 : ℤ), (1 / 10 : ℚ))] 5000 = some (1 / 10) := by rfl

/-- C2 (amended): in the partition reconciliation pass every produced update
comes from a snapshot whose distance to the target timestamp is within the
configured 48-hour gap — a candidate beyond the gap produces no update; the
Binance interest lookup `pick_closest_rate`, however, applies NO gap check
(see the counterexample). -/
theorem C2_align_gap_policy (vals : List (List String)) (u : ℕ × ℚ)
    (hu : u ∈ align_bybit_interest_to_funding_updates vals) :
    ∃ tt, (tt, u.1) ∈ (alignScan 2 vals).2 ∧
      ∃ s ∈ (alignScan 2 vals).1, u.2 = s.2 ∧
        |s.1 - tt| ≤ (BYBIT_ALIGN_MAX_GAP_HOURS : ℤ) * 3600 * 1000 :=
  align_updates_spec vals u hu

/-- Witness for C2 at a concrete grid: the snapshot one day away (within the
48-hour gap) is matched. -/
theorem C2_align_gap_policy_witness :
    ∃ tt, (tt, (3, (strToRat "7").getD 0).1) ∈ (alignScan 2 alignExampleVals).2 ∧
      ∃ s ∈ (alignScan 2 alignExampleVals).1, (3, (strToRat "7").getD 0).2 = s.2 ∧
        |s.1 - tt| ≤ (BYBIT_ALIGN_MAX_GAP_HOURS : ℤ) * 3600 * 1000 := by
  refine C2_align_gap_policy alignExampleVals (3, (strToRat "7").getD 0) ?_
  have h : align_bybit_interest_to_funding_updates alignExampleVals
      = [(3, (strToRat "7").getD 0)] := by rfl
  rw [h]
  exact List.mem_cons_self _ _

theorem getD_replicate_str (m i : ℕ) : (List.replicate m "").getD i "" = "" := by
  rw [List.getD_eq_getElem?_getD, List.getElem?_replicate]
  split_ifs <;> rfl

theorem getD_pad (row : List String) (m j : ℕ) :
    (row ++ List.replicate m "").getD j "" = row.getD j "" := by
  rw [List.getD_eq_getElem?_getD, List.getD_eq_getElem?_getD, List.getElem?_append]
  rcases Nat.lt_or_ge j row.length with h | h
  · rw [if_pos h]
  · rw [if_neg (by omega), List.getElem?_replicate, List.getElem?_eq_none h]
    split_ifs <;> rfl

theorem getCell_update_cell (g : List (List String)) (idx : ℕ) (v : String) (i j : ℕ)
    (h : ¬(i = idx - 2 ∧ j = 3)) :
    getCell (update_cell g idx v) i j = getCell g i j := by
  unfold update_cell getCell
  split
  next hrow => rfl
  next row hrow =>
    have hlt : idx - 2 < g.length := by
      by_contra hge
      push_neg at hge
      rw [List.get?_eq_getElem?, List.getElem?_eq_none hge] at hrow
      exact Option.noConfusion hrow
    by_cases hik : i = idx - 2
    · subst hik
      have hj : j ≠ 3 := fun hj => h ⟨rfl, hj⟩
      have hset : (g.set (idx - 2) ((row ++ List.replicate (4 - row.length) "").set 3 v)).getD
          (idx - 2) [] = (row ++ List.replicate (4 - row.length) "").set 3 v := by
        rw [List.getD_eq_getElem?_getD, List.getElem?_set_self hlt]
        rfl
      have hget : g.getD (idx - 2) [] = row := by
        rw [List.getD_eq_getElem?_getD, ← List.get?_eq_getElem?, hrow]
        rfl
      rw [hset, hget]
      rw [List.getD_eq_getElem?_getD, List.getElem?_set_ne (fun he => hj he.symm),
        ← List.getD_eq_getElem?_getD, getD_pad]
    · have hset2 : (g.set (idx - 2) ((row ++ List.replicate (4 - row.length) "").set 3 v)).getD
          i [] = g.getD i [] := by
        rw [List.getD_eq_getElem?_getD, List.getElem?_set_ne (fun he => hik he.symm),
          ← List.getD_eq_getElem?_getD]
      rw [hset2]

theorem apply_align_frame : ∀ (ups : List (ℕ × ℚ)) (g : List (List String)) (i j : ℕ),
    getCell (apply_align_updates g ups) i j ≠ getCell g i j →
    ∃ u ∈ ups, i = u.1 - 2 ∧ j = 3 := by
  intro ups
  induction ups with
  | nil => intro g i j h; exact absurd rfl h
  | cons u us ih =>
    intro g i j h
    simp only [apply_align_updates, List.foldl_cons] at h
    by_cases h2 : getCell (apply_align_updates (update_cell g u.1 (ratCellStr u.2)) us) i j
        = getCell (update_cell g u.1 (ratCellStr u.2)) i j
    · by_cases hcond : i = u.1 - 2 ∧ j = 3
      · exact ⟨u, List.mem_cons_self _ _, hcond⟩
      · exfalso
        apply h
        have h3 := getCell_update_cell g u.1 (ratCellStr u.2) i j hcond
        calc getCell (List.foldl (fun g u => update_cell g u.1 (ratCellStr u.2))
              (update_cell g u.1 (ratCellStr u.2)) us) i j
            = getCell (update_cell g u.1 (ratCellStr u.2)) i j := h2
          _ = getCell g i j := h3
    · obtain ⟨u2, hu2, hcond⟩ := ih (update_cell g u.1 (ratCellStr u.2)) i j h2
      exact ⟨u2, List.mem_cons_of_mem _ hu2, hcond⟩

theorem alignScan_targets (tt : ℤ) (idx : ℕ) :
    ∀ (rows : List (List String)) (i0 : ℕ), (tt, idx) ∈ (alignScan i0 rows).2 →
      i0 ≤ idx ∧ idx - i0 < rows.length ∧
      (rows.getD (idx - i0) []).headD "" ≠ "" ∧
      _to_ms ((rows.getD (idx - i0) []).headD "") = some tt ∧
      pyStrip ((rows.getD (idx - i0) []).getD 1 "") ≠ "" ∧
      pyStrip ((rows.getD (idx - i0) []).getD 3 "") = "" := by
  intro rows
  induction rows with
  | nil => intro i0 h; simp [alignScan] at h
  | cons row rest ih =>
    intro i0 h
    simp only [alignScan] at h
    have lift : (tt, idx) ∈ (alignScan (i0 + 1) rest).2 →
        i0 ≤ idx ∧ idx - i0 < (row :: rest).length ∧
        ((row :: rest).getD (idx - i0) []).headD "" ≠ "" ∧
        _to_ms (((row :: rest).getD (idx - i0) []).headD "") = some tt ∧
        pyStrip (((row :: rest).getD (idx - i0) []).getD 1 "") ≠ "" ∧
        pyStrip (((row :: rest).getD (idx - i0) []).getD 3 "") = "" := by
      intro h2
      obtain ⟨l1, l2, l3, l4, l5, l6⟩ := ih (i0 + 1) h2
      have hidx : idx - i0 = (idx - (i0 + 1)) + 1 := by omega
      rw [hidx]
      simp only [List.getD_cons_succ, List.length_cons]
      exact ⟨by omega, by omega, l3, l4, l5, l6⟩
    by_cases ha : row.headD "" = ""
    · rw [if_pos ha] at h
      exact lift h
    · rw [if_neg ha] at h
      split at h
      next hms => exact lift h
      next t0 hms =>
        by_cases hsnap : pyStrip (row.getD 1 "") = "" ∧ pyStrip (row.getD 3 "") ≠ ""
        · rw [if_pos hsnap] at h
          split at h
          next rate hrate => exact lift h
          next hrate => exact lift h
        · rw [if_neg hsnap] at h
          by_cases htgt : pyStrip (row.getD 1 "") ≠ "" ∧ pyStrip (row.getD 3 "") = ""
          · rw [if_pos htgt] at h
            rcases List.mem_cons.mp h with heq | hmem
            · have h1 : tt = t0 ∧ idx = i0 := by simpa [Prod.ext_iff] using heq
              obtain ⟨rfl, rfl⟩ := h1
              refine ⟨le_refl _, by simp, ?_, ?_, ?_, ?_⟩
              · simpa [Nat.sub_self] using ha
              · simp only [Nat.sub_self, List.getD_cons_zero]
                exact hms
              · simp only [Nat.sub_self, List.getD_cons_zero]
                exact htgt.1
              · simp only [Nat.sub_self, List.getD_cons_zero]
                exact htgt.2
            · exact lift hmem
          · rw [if_neg htgt] at h
            exact lift h

/-- C4: the reconciliation pass only ever changes the interest cell (grid
column index 3, sheet column 4) of a row whose funding cell is non-blank,
whose interest cell was blank, and whose column-1 timestamp is non-empty and
parseable; every other cell of every row is left unchanged, so no cell that
already held a non-empty value is modified. -/
theorem C4_align_frame_effect (vals : List (List String)) (i j : ℕ)
    (hne : getCell (apply_align_updates vals (align_bybit_interest_to_funding_updates vals)) i j
      ≠ getCell vals i j) :
    j = 3 ∧ getCell vals i 0 ≠ "" ∧ _to_ms (getCell vals i 0) ≠ none ∧
    pyStrip (getCell vals i 1) ≠ "" ∧ pyStrip (getCell vals i 3) = "" := by
  obtain ⟨u, hu, hcond⟩ := apply_align_frame _ vals i j hne
  obtain ⟨hi, hj⟩ := hcond
  subst hi
  subst hj
  obtain ⟨tt, htt, _⟩ := align_updates_spec vals u hu
  obtain ⟨h2le, hlen, ha, hms, hb, hd⟩ := alignScan_targets tt u.1 vals 2 htt
  have hhead : (vals.getD (u.1 - 2) []).headD "" = getCell vals (u.1 - 2) 0 := by
    unfold getCell
    cases vals.getD (u.1 - 2) [] <;> rfl
  refine ⟨rfl, ?_, ?_, hb, hd⟩
  · rw [← hhead]
    exact ha
  · rw [← hhead, hms]
    simp

/-- Witness for C4 at the concrete grid: the filled interest cell did change,
and the target-row characterization holds. -/
theorem C4_align_frame_effect_witness :
    3 = 3 ∧ getCell alignExampleVals 1 0 ≠ "" ∧
    _to_ms (getCell alignExampleVals 1 0) ≠ none ∧
    pyStrip (getCell alignExampleVals 1 1) ≠ "" ∧ pyStrip (getCell alignExampleVals 1 3) = "" :=
  C4_align_frame_effect alignExampleVals 1 3 (by decide)

end RatePulling
